import Mathlib

/-!
A verification development for the streaming execution core of the
risingwave repository: the message/barrier data model, the merger
(barrier aligner), the dispatcher family (Hash / Simple / RoundRobin),
the actor state machine, the fragment graph builder, and the global
memory manager (`src/compute/src/memory_management/memory_manager.rs`).

The dispatcher / merger / stream-manager implementation itself is not
among the provided source files (only its integration test
`rust/server/src/stream/tests.rs` is), so those parts are modelled from
the specification's §3-§4.4 wording; the memory-manager definitions are
embedded directly from `memory_manager.rs`.
-/

namespace Spec2Proof

/-! ## Stream data model

Modelled from the spec: §3 Message — "a tagged union of {Chunk (a batch
of rows), Barrier (epoch, mutation)}"; Mutation — "a tag from
{Nothing, Stop, Update(membership-change payload)}". A row is a list of
column values. -/

/-- A row of a chunk: a list of column values. -/
def Row : Type := List Int

instance : DecidableEq Row := inferInstanceAs (DecidableEq (List Int))

/-- Modelled from the spec: the mutation tag carried by a Barrier. -/
inductive Mutation : Type where
  | nothing : Mutation
  | stop : Mutation
  | update (payload : Nat) : Mutation
deriving DecidableEq, Repr

/-- Modelled from the spec: a Barrier carries an epoch and a mutation. -/
structure Barrier : Type where
  epoch : Nat
  mutation : Mutation
deriving DecidableEq, Repr

/-- Modelled from the spec: a message is either a Chunk of rows or a Barrier. -/
inductive Message : Type where
  | chunk (rows : List Row) : Message
  | barrier (b : Barrier) : Message
deriving DecidableEq

/-- The barrier subsequence of a message stream. -/
def barriersOf : List Message → List Barrier
  | [] => []
  | Message.chunk _ :: rest => barriersOf rest
  | Message.barrier b :: rest => b :: barriersOf rest

/-- Is this message a chunk? -/
def Message.isChunk : Message → Bool
  | Message.chunk _ => true
  | Message.barrier _ => false

/-! ## Merger (barrier aligner)

Modelled from the spec, §4.3: per upstream channel, Chunks received
before the next barrier are appended to the merged output immediately;
a Barrier for epoch E is emitted only once every channel has reached E,
after which alignment state is cleared for the next epoch. The model
consumes each channel as a finite list: a merge round takes every
channel's chunks up to its first barrier, emits them, and emits the
single merged barrier only when every channel's first barrier agrees. -/

/-- Split a channel at its first barrier: the chunk messages before it,
and (when a barrier exists) that barrier together with the remaining
messages after it. -/
def splitAtBarrier : List Message → List Message × Option (Barrier × List Message)
  | [] => ([], none)
  | Message.chunk rows :: rest =>
      (Message.chunk rows :: (splitAtBarrier rest).1, (splitAtBarrier rest).2)
  | Message.barrier b :: rest => ([], some (b, rest))

/-- The messages of a channel strictly after its first barrier (empty when
the channel holds no barrier). -/
def afterBarrier (c : List Message) : List Message :=
  match (splitAtBarrier c).2 with
  | some (_, rest) => rest
  | none => []

/-- Check that every remaining channel head is a barrier equal to `b`;
collect the channels' remainders. -/
def restAligned (b : Barrier) : List (Option (Barrier × List Message)) →
    Option (List (List Message))
  | [] => some []
  | none :: _ => none
  | some (b', rest) :: ps =>
      if b' = b then (restAligned b ps).map (fun rs => rest :: rs) else none

/-- Barrier alignment check over all channel heads: succeeds exactly when
every channel's next barrier exists and all agree, returning the common
barrier and the channels' remainders. -/
def headsAligned : List (Option (Barrier × List Message)) →
    Option (Barrier × List (List Message))
  | [] => none
  | none :: _ => none
  | some (b, rest) :: ps =>
      match restAligned b ps with
      | some rests => some (b, rest :: rests)
      | none => none

/-- One merge round after another, bounded by fuel: emit every channel's
chunks up to its first barrier, then the merged barrier when alignment
is satisfied, and recurse on the channel remainders. -/
def mergerAux : Nat → List (List Message) → List Message
  | 0, _ => []
  | Nat.succ fuel, channels =>
      if channels.isEmpty then [] else
      match headsAligned (channels.map fun c => (splitAtBarrier c).2) with
      | some (b, rests) =>
          (channels.map fun c => (splitAtBarrier c).1).flatten ++
            Message.barrier b :: mergerAux fuel rests
      | none => (channels.map fun c => (splitAtBarrier c).1).flatten

/-- The merger: run merge rounds with enough fuel to exhaust the channels
(each round that emits a barrier consumes at least one message per
channel, so total length plus one rounds always suffice). -/
def merger (channels : List (List Message)) : List Message :=
  mergerAux ((channels.map List.length).sum + 1) channels

/-- The chunk messages of a stream that occur before its barrier number
`k` (zero-indexed); when the stream has at most `k` barriers, all of its
chunk messages. -/
def chunksBefore : Nat → List Message → List Message
  | _, [] => []
  | k, Message.chunk rows :: rest => Message.chunk rows :: chunksBefore k rest
  | 0, Message.barrier _ :: _ => []
  | Nat.succ k, Message.barrier _ :: rest => chunksBefore k rest

example : merger [[Message.barrier ⟨0, Mutation.nothing⟩],
                  [Message.barrier ⟨0, Mutation.nothing⟩]] =
    [Message.barrier ⟨0, Mutation.nothing⟩] := by decide

example : merger [[Message.chunk [[1]], Message.barrier ⟨0, Mutation.nothing⟩],
                  [Message.barrier ⟨0, Mutation.nothing⟩, Message.chunk [[2]]]] =
    [Message.chunk [[1]], Message.barrier ⟨0, Mutation.nothing⟩,
     Message.chunk [[2]]] := by decide

/-! ### Merger lemmas -/

theorem barriersOf_nil_split (l : List Message) (h : barriersOf l = []) :
    splitAtBarrier l = (l, none) := by
  induction l with
  | nil => rfl
  | cons m rest ih =>
    cases m with
    | chunk rows =>
      have h' : barriersOf rest = [] := by simpa [barriersOf] using h
      simp [splitAtBarrier, ih h']
    | barrier b => simp [barriersOf] at h

theorem barriersOf_cons_split (l : List Message) (b : Barrier) (bs : List Barrier)
    (h : barriersOf l = b :: bs) :
    (splitAtBarrier l).2 = some (b, afterBarrier l) ∧
    barriersOf (splitAtBarrier l).1 = [] ∧
    barriersOf (afterBarrier l) = bs ∧
    l = (splitAtBarrier l).1 ++ Message.barrier b :: afterBarrier l := by
  induction l with
  | nil => simp [barriersOf] at h
  | cons m rest ih =>
    cases m with
    | chunk rows =>
      have h' : barriersOf rest = b :: bs := by simpa [barriersOf] using h
      obtain ⟨h1, h2, h3, h4⟩ := ih h'
      have ha : afterBarrier (Message.chunk rows :: rest) = afterBarrier rest := by
        simp [afterBarrier, splitAtBarrier]
      refine ⟨?_, ?_, ?_, ?_⟩
      · simpa [splitAtBarrier, ha] using h1
      · simpa [splitAtBarrier, barriersOf] using h2
      · simpa [ha] using h3
      · simpa [splitAtBarrier, ha] using congrArg (Message.chunk rows :: ·) h4
    | barrier b' =>
      have hb : b' = b ∧ barriersOf rest = bs := by
        simpa [barriersOf] using h
      obtain ⟨hb1, hb2⟩ := hb
      subst hb1
      simp [splitAtBarrier, afterBarrier, barriersOf, hb2]

theorem restAligned_map (b : Barrier) (channels : List (List Message))
    (h : ∀ c ∈ channels, (splitAtBarrier c).2 = some (b, afterBarrier c)) :
    restAligned b (channels.map fun c => (splitAtBarrier c).2) =
      some (channels.map afterBarrier) := by
  induction channels with
  | nil => rfl
  | cons c cs ih =>
    have hc := h c (List.mem_cons_self c cs)
    have ihcs := ih fun c' hc' => h c' (List.mem_cons_of_mem c hc')
    simp [restAligned, hc, ihcs]

theorem headsAligned_map (b : Barrier) (channels : List (List Message))
    (hne : channels ≠ [])
    (h : ∀ c ∈ channels, (splitAtBarrier c).2 = some (b, afterBarrier c)) :
    headsAligned (channels.map fun c => (splitAtBarrier c).2) =
      some (b, channels.map afterBarrier) := by
  cases channels with
  | nil => exact absurd rfl hne
  | cons c cs =>
    have hc := h c (List.mem_cons_self c cs)
    have hrest := restAligned_map b cs fun c' hc' => h c' (List.mem_cons_of_mem c hc')
    simp [headsAligned, hc, hrest]

theorem mergerAux_round (fuel : Nat) (channels : List (List Message))
    (b : Barrier) (bs : List Barrier) (hne : channels ≠ [])
    (h : ∀ c ∈ channels, barriersOf c = b :: bs) :
    mergerAux (fuel + 1) channels =
      (channels.map fun c => (splitAtBarrier c).1).flatten ++
        Message.barrier b :: mergerAux fuel (channels.map afterBarrier) := by
  have hsplit : ∀ c ∈ channels, (splitAtBarrier c).2 = some (b, afterBarrier c) :=
    fun c hc => (barriersOf_cons_split c b bs (h c hc)).1
  have hAligned := headsAligned_map b channels hne hsplit
  have hni : channels.isEmpty = false := by
    cases channels with
    | nil => exact absurd rfl hne
    | cons c cs => rfl
  simp only [mergerAux, hni, hAligned, Bool.false_eq_true, if_false]

theorem mergerAux_flat (fuel : Nat) (channels : List (List Message))
    (h : ∀ c ∈ channels, barriersOf c = []) :
    mergerAux (fuel + 1) channels = channels.flatten := by
  cases channels with
  | nil => simp [mergerAux]
  | cons c cs =>
    have hc : splitAtBarrier c = (c, none) :=
      barriersOf_nil_split c (h c (List.mem_cons_self c cs))
    have hmap : ∀ x ∈ c :: cs, (splitAtBarrier x).1 = x :=
      fun x hx => congrArg Prod.fst (barriersOf_nil_split x (h x hx))
    have hflat : ((c :: cs).map fun x => (splitAtBarrier x).1) = c :: cs := by
      calc ((c :: cs).map fun x => (splitAtBarrier x).1)
          = (c :: cs).map id := List.map_congr_left fun x hx => hmap x hx
        _ = c :: cs := List.map_id (c :: cs)
    simp [mergerAux, headsAligned, hc, hflat]

theorem barriersOf_append (l₁ l₂ : List Message) :
    barriersOf (l₁ ++ l₂) = barriersOf l₁ ++ barriersOf l₂ := by
  induction l₁ with
  | nil => rfl
  | cons m rest ih =>
    cases m with
    | chunk rows => simpa [barriersOf] using ih
    | barrier b => simpa [barriersOf] using ih

theorem barriersOf_flatten_nil (ls : List (List Message))
    (h : ∀ l ∈ ls, barriersOf l = []) : barriersOf ls.flatten = [] := by
  induction ls with
  | nil => rfl
  | cons l rest ih =>
    rw [List.flatten_cons, barriersOf_append, h l (List.mem_cons_self l rest),
      ih fun l' hl' => h l' (List.mem_cons_of_mem l hl'), List.nil_append]

theorem barriersOf_splitAtBarrier_fst (l : List Message) :
    barriersOf (splitAtBarrier l).1 = [] := by
  induction l with
  | nil => rfl
  | cons m rest ih =>
    cases m with
    | chunk rows => simpa [splitAtBarrier, barriersOf] using ih
    | barrier b => simp [splitAtBarrier, barriersOf]

theorem barriersOf_mergerAux (bs : List Barrier) :
    ∀ (fuel : Nat) (channels : List (List Message)), channels ≠ [] →
      (∀ c ∈ channels, barriersOf c = bs) → bs.length < fuel →
      barriersOf (mergerAux fuel channels) = bs := by
  induction bs with
  | nil =>
    intro fuel channels hne h hfuel
    obtain ⟨f, rfl⟩ : ∃ f, fuel = f + 1 :=
      ⟨fuel - 1, by omega⟩
    rw [mergerAux_flat f channels h]
    exact barriersOf_flatten_nil channels h
  | cons b bs ih =>
    intro fuel channels hne h hfuel
    obtain ⟨f, rfl⟩ : ∃ f, fuel = f + 1 := ⟨fuel - 1, by omega⟩
    rw [mergerAux_round f channels b bs hne h, barriersOf_append]
    have hchunks : barriersOf (channels.map fun c => (splitAtBarrier c).1).flatten = [] := by
      apply barriersOf_flatten_nil
      intro l hl
      obtain ⟨c, _, rfl⟩ := List.mem_map.mp hl
      exact barriersOf_splitAtBarrier_fst c
    have hrec : barriersOf (mergerAux f (channels.map afterBarrier)) = bs := by
      apply ih f (channels.map afterBarrier)
      · intro hmap
        exact hne (List.map_eq_nil_iff.mp hmap)
      · intro c' hc'
        obtain ⟨c, hc, rfl⟩ := List.mem_map.mp hc'
        exact (barriersOf_cons_split c b bs (h c hc)).2.2.1
      · simpa using Nat.lt_of_succ_lt_succ hfuel
    rw [hchunks, List.nil_append]
    simp [barriersOf, hrec]

theorem chunksBefore_of_no_barriers (k : Nat) (l : List Message)
    (h : barriersOf l = []) : chunksBefore k l = l := by
  induction l with
  | nil => cases k <;> rfl
  | cons m rest ih =>
    cases m with
    | chunk rows =>
      have h' : barriersOf rest = [] := by simpa [barriersOf] using h
      simp [chunksBefore, ih h']
    | barrier b => simp [barriersOf] at h

theorem chunksBefore_chunks_append (k : Nat) (pre t : List Message)
    (h : barriersOf pre = []) :
    chunksBefore k (pre ++ t) = pre ++ chunksBefore k t := by
  induction pre with
  | nil => rfl
  | cons m rest ih =>
    cases m with
    | chunk rows =>
      have h' : barriersOf rest = [] := by simpa [barriersOf] using h
      simp [chunksBefore, ih h']
    | barrier b => simp [barriersOf] at h

theorem chunksBefore_mergerAux (bs : List Barrier) :
    ∀ (fuel : Nat) (channels : List (List Message)) (k : Nat), channels ≠ [] →
      (∀ c ∈ channels, barriersOf c = bs) → bs.length < fuel →
      ∀ c ∈ channels, ∀ m ∈ chunksBefore k c,
        m ∈ chunksBefore k (mergerAux fuel channels) := by
  induction bs with
  | nil =>
    intro fuel channels k hne h hfuel c hc m hm
    obtain ⟨f, rfl⟩ : ∃ f, fuel = f + 1 := ⟨fuel - 1, by omega⟩
    rw [mergerAux_flat f channels h]
    rw [chunksBefore_of_no_barriers k c (h c hc)] at hm
    rw [chunksBefore_of_no_barriers k channels.flatten
      (barriersOf_flatten_nil channels h)]
    exact List.mem_flatten.mpr ⟨c, hc, hm⟩
  | cons b bs ih =>
    intro fuel channels k hne h hfuel c hc m hm
    obtain ⟨f, rfl⟩ : ∃ f, fuel = f + 1 := ⟨fuel - 1, by omega⟩
    rw [mergerAux_round f channels b bs hne h]
    obtain ⟨-, hpre, hrest, hdec⟩ := barriersOf_cons_split c b bs (h c hc)
    have hCH : barriersOf (channels.map fun x => (splitAtBarrier x).1).flatten = [] := by
      apply barriersOf_flatten_nil
      intro l hl
      obtain ⟨x, _, rfl⟩ := List.mem_map.mp hl
      exact barriersOf_splitAtBarrier_fst x
    have hmemCH : ∀ m' ∈ (splitAtBarrier c).1,
        m' ∈ (channels.map fun x => (splitAtBarrier x).1).flatten := by
      intro m' hm'
      exact List.mem_flatten.mpr
        ⟨(splitAtBarrier c).1, List.mem_map.mpr ⟨c, hc, rfl⟩, hm'⟩
    rw [hdec, chunksBefore_chunks_append k _ _ hpre] at hm
    rw [chunksBefore_chunks_append k _ _ hCH]
    cases k with
    | zero =>
      simp only [chunksBefore, List.append_nil] at hm ⊢
      exact hmemCH m hm
    | succ k' =>
      simp only [chunksBefore] at hm ⊢
      rcases List.mem_append.mp hm with hmp | hmr
      · exact List.mem_append.mpr (Or.inl (hmemCH m hmp))
      · refine List.mem_append.mpr (Or.inr ?_)
        apply ih f (channels.map afterBarrier) k'
        · intro hmap
          exact hne (List.map_eq_nil_iff.mp hmap)
        · intro c' hc'
          obtain ⟨x, hx, rfl⟩ := List.mem_map.mp hc'
          exact (barriersOf_cons_split x b bs (h x hx)).2.2.1
        · simpa using Nat.lt_of_succ_lt_succ hfuel
        · exact List.mem_map.mpr ⟨c, hc, rfl⟩
        · exact hmr

theorem barriersOf_length_le (l : List Message) :
    (barriersOf l).length ≤ l.length := by
  induction l with
  | nil => exact Nat.le_refl 0
  | cons m rest ih =>
    cases m with
    | chunk rows => simpa [barriersOf] using Nat.le_succ_of_le ih
    | barrier b => simpa [barriersOf] using Nat.succ_le_succ ih

theorem merger_fuel_enough (channels : List (List Message)) (bs : List Barrier)
    (hne : channels ≠ []) (h : ∀ c ∈ channels, barriersOf c = bs) :
    bs.length < (channels.map List.length).sum + 1 := by
  cases channels with
  | nil => exact absurd rfl hne
  | cons c cs =>
    have h1 : bs.length ≤ c.length := by
      rw [← h c (List.mem_cons_self c cs)]
      exact barriersOf_length_le c
    have h2 : c.length ≤ ((c :: cs).map List.length).sum := by
      exact List.single_le_sum (fun x _ => Nat.zero_le x) c.length
        (List.mem_map.mpr ⟨c, List.mem_cons_self c cs, rfl⟩)
    omega

/-! ## Dispatcher

Modelled from the spec, §4.2: Hash computes a partition index from a
designated column's value of each row, splits the chunk into
per-destination sub-batches, and sends each non-empty sub-batch to its
destination; Simple sends every message to every registered downstream
channel verbatim; RoundRobin sends successive Chunks to successive
channels. A Barrier is never split: every dispatcher sends it,
unmodified, to every downstream channel. `dispatchMessage` returns, per
downstream channel, the list of messages that channel receives. -/

/-- Partition index of a row: the hash of the designated column's value,
reduced modulo the number of downstream channels. -/
def partitionIdx (hashOf : Int → Nat) (colIdx n : Nat) (r : Row) : Nat :=
  hashOf (r.getD colIdx 0) % n

/-- Hash dispatch of one message to `n` downstream channels. -/
def hashDispatch (hashOf : Int → Nat) (colIdx n : Nat) : Message → List (List Message)
  | Message.chunk rows =>
      (List.range n).map fun i =>
        let sub := rows.filter fun r => partitionIdx hashOf colIdx n r = i
        if sub.isEmpty then [] else [Message.chunk sub]
  | Message.barrier b => List.replicate n [Message.barrier b]

/-- Simple dispatch of one message to `n` downstream channels. -/
def simpleDispatch (n : Nat) : Message → List (List Message)
  | Message.chunk rows => List.replicate n [Message.chunk rows]
  | Message.barrier b => List.replicate n [Message.barrier b]

/-- Round-robin dispatch of one message to `n` downstream channels, with
current round-robin cursor `k`: the whole chunk goes to channel `k % n`. -/
def roundRobinDispatch (n k : Nat) : Message → List (List Message)
  | Message.chunk rows =>
      (List.range n).map fun i => if i = k % n then [Message.chunk rows] else []
  | Message.barrier b => List.replicate n [Message.barrier b]

/-- Modelled from the spec: the dispatcher type tag. -/
inductive DispatcherType : Type where
  | hash (colIdx : Nat) : DispatcherType
  | simple : DispatcherType
  | roundRobin : DispatcherType
deriving DecidableEq

/-- Dispatch one message according to the dispatcher type. -/
def dispatchMessage (hashOf : Int → Nat) (d : DispatcherType) (n k : Nat) :
    Message → List (List Message)
  | m => match d with
    | DispatcherType.hash colIdx => hashDispatch hashOf colIdx n m
    | DispatcherType.simple => simpleDispatch n m
    | DispatcherType.roundRobin => roundRobinDispatch n k m

/-- The round-robin cursor advances on chunks only. -/
def rrNext (k : Nat) : Message → Nat
  | Message.chunk _ => k + 1
  | Message.barrier _ => k

/-- Dispatch a whole message stream, accumulating the per-channel outputs
channel-wise in order. -/
def dispatchRun (hashOf : Int → Nat) (d : DispatcherType) (n : Nat) :
    Nat → List Message → List (List Message)
  | _, [] => List.replicate n []
  | k, m :: rest =>
      List.zipWith (· ++ ·) (dispatchMessage hashOf d n k m)
        (dispatchRun hashOf d n (rrNext k m) rest)

/-- Total number of deliveries of row `r` across the per-channel outputs. -/
def rowCount (r : Row) (msgs : List Message) : Nat :=
  (msgs.map fun m => match m with
    | Message.chunk rows => rows.count r
    | Message.barrier _ => 0).sum

/-- Total number of deliveries of row `r` summed over all channels. -/
def rowCountAcross (r : Row) (outputs : List (List Message)) : Nat :=
  (outputs.map (rowCount r)).sum

/-! ### Dispatcher lemmas -/

theorem count_filter_eq_zero {α : Type} [DecidableEq α] {p : α → Bool} {a : α}
    (h : p a = false) (l : List α) : (l.filter p).count a = 0 := by
  refine List.count_eq_zero.mpr fun hmem => ?_
  have := (List.mem_filter.mp hmem).2
  rw [h] at this
  exact Bool.noConfusion this

theorem sum_range_single (c : Nat) :
    ∀ (n x : Nat), x < n →
      ((List.range n).map fun i => if x = i then c else 0).sum = c := by
  intro n
  induction n with
  | zero => intro x hx; omega
  | succ n ih =>
    intro x hx
    rw [List.range_succ, List.map_append, List.sum_append]
    rcases Nat.lt_or_ge x n with h | h
    · rw [ih x h]
      simp [Nat.ne_of_lt h]
    · have hxn : x = n := by omega
      subst hxn
      have hz : ((List.range x).map fun i => if x = i then c else 0).sum = 0 := by
        apply List.sum_eq_zero
        intro y hy
        obtain ⟨i, hi, rfl⟩ := List.mem_map.mp hy
        have : x ≠ i := Nat.ne_of_gt (List.mem_range.mp hi)
        simp [this]
      rw [hz]
      simp

theorem rowCount_subBatch (r : Row) (sub : List Row) :
    rowCount r (if sub.isEmpty then [] else [Message.chunk sub]) = sub.count r := by
  cases hsub : sub.isEmpty with
  | true =>
    rw [List.isEmpty_iff.mp hsub]
    simp [rowCount]
  | false => simp [rowCount]

theorem hashDispatch_rowCount (hashOf : Int → Nat) (colIdx n : Nat) (hn : 0 < n)
    (rows : List Row) (r : Row) :
    rowCountAcross r (hashDispatch hashOf colIdx n (Message.chunk rows)) =
      rows.count r := by
  unfold hashDispatch rowCountAcross
  rw [List.map_map]
  have hstep : ∀ i ∈ List.range n,
      (rowCount r ∘ fun i =>
        let sub := rows.filter fun r' => partitionIdx hashOf colIdx n r' = i
        if sub.isEmpty then [] else [Message.chunk sub]) i =
      (if partitionIdx hashOf colIdx n r = i then rows.count r else 0) := by
    intro i _
    show rowCount r (if (rows.filter fun r' => partitionIdx hashOf colIdx n r' = i).isEmpty
        then [] else [Message.chunk (rows.filter fun r' => partitionIdx hashOf colIdx n r' = i)]) = _
    rw [rowCount_subBatch]
    by_cases hp : partitionIdx hashOf colIdx n r = i
    · rw [if_pos hp]
      exact List.count_filter (by simpa using hp)
    · rw [if_neg hp]
      exact count_filter_eq_zero (by simpa using hp) rows
  rw [List.map_congr_left hstep]
  exact sum_range_single (rows.count r) n _ (Nat.mod_lt _ hn)

theorem roundRobinDispatch_rowCount (n k : Nat) (hn : 0 < n)
    (rows : List Row) (r : Row) :
    rowCountAcross r (roundRobinDispatch n k (Message.chunk rows)) =
      rows.count r := by
  unfold roundRobinDispatch rowCountAcross
  rw [List.map_map]
  have hstep : ∀ i ∈ List.range n,
      (rowCount r ∘ fun i => if i = k % n then [Message.chunk rows] else []) i =
      (if k % n = i then rows.count r else 0) := by
    intro i _
    by_cases hp : k % n = i
    · subst hp
      simp [rowCount]
    · have : i ≠ k % n := fun hi => hp hi.symm
      simp [rowCount, this, hp]
  rw [List.map_congr_left hstep]
  exact sum_range_single (rows.count r) n _ (Nat.mod_lt _ hn)

theorem simpleDispatch_verbatim (n : Nat) (m : Message) :
    simpleDispatch n m = List.replicate n [m] := by
  cases m <;> rfl

/-! ### Claim theorems: merger alignment and dispatch -/

/-- C1: for a Merger over `N` upstream channels whose channels all carry
the same barrier sequence (the system invariant: barriers are broadcast
to every channel), a merged Barrier is emitted if and only if that
Barrier has been received on every upstream channel, and every Chunk
received before a channel's barrier number `k` appears in the merged
output before merged barrier number `k` — chunks are never held back by
alignment. -/
theorem merger_barrier_alignment (channels : List (List Message)) (bs : List Barrier)
    (hne : channels ≠ []) (hcommon : ∀ c ∈ channels, barriersOf c = bs) :
    barriersOf (merger channels) = bs ∧
    (∀ b : Barrier, b ∈ barriersOf (merger channels) ↔
      ∀ c ∈ channels, b ∈ barriersOf c) ∧
    (∀ k : Nat, ∀ c ∈ channels, ∀ m ∈ chunksBefore k c,
      m ∈ chunksBefore k (merger channels)) := by
  have hfuel := merger_fuel_enough channels bs hne hcommon
  have hb : barriersOf (merger channels) = bs :=
    barriersOf_mergerAux bs _ channels hne hcommon hfuel
  refine ⟨hb, ?_, ?_⟩
  · intro b
    rw [hb]
    constructor
    · intro hbbs c hc
      rw [hcommon c hc]
      exact hbbs
    · intro hall
      obtain ⟨c, hc⟩ : ∃ c, c ∈ channels := by
        cases channels with
        | nil => exact absurd rfl hne
        | cons c cs => exact ⟨c, List.mem_cons_self c cs⟩
      have hmem := hall c hc
      rwa [hcommon c hc] at hmem
  · intro k c hc m hm
    exact chunksBefore_mergerAux bs _ channels k hne hcommon hfuel c hc m hm

/-- Witness for C1 at a concrete two-channel merger. -/
theorem merger_barrier_alignment_witness :
    barriersOf (merger
      [[Message.chunk [[5]], Message.barrier ⟨1, Mutation.nothing⟩],
       [Message.barrier ⟨1, Mutation.nothing⟩]]) = [⟨1, Mutation.nothing⟩] ∧
    Message.chunk [[5]] ∈ chunksBefore 0 (merger
      [[Message.chunk [[5]], Message.barrier ⟨1, Mutation.nothing⟩],
       [Message.barrier ⟨1, Mutation.nothing⟩]]) := by
  have h := merger_barrier_alignment
    [[Message.chunk [[5]], Message.barrier ⟨1, Mutation.nothing⟩],
     [Message.barrier ⟨1, Mutation.nothing⟩]]
    [⟨1, Mutation.nothing⟩] (by decide) (by decide)
  exact ⟨h.1,
    h.2.2 0 [Message.chunk [[5]], Message.barrier ⟨1, Mutation.nothing⟩]
      (by decide) (Message.chunk [[5]]) (by decide)⟩

/-- C2: under Hash and RoundRobin dispatch every input row of a Chunk is
delivered to exactly one downstream destination (each row's total
delivery count across the `n` channels equals its count in the input, so
nothing is duplicated or dropped); under Simple dispatch every message is
delivered to every registered destination unchanged. -/
theorem dispatch_completeness_exclusivity (hashOf : Int → Nat) (n : Nat)
    (hn : 0 < n) :
    (∀ (colIdx : Nat) (rows : List Row) (r : Row),
      rowCountAcross r (hashDispatch hashOf colIdx n (Message.chunk rows)) =
        rows.count r) ∧
    (∀ (k : Nat) (rows : List Row) (r : Row),
      rowCountAcross r (roundRobinDispatch n k (Message.chunk rows)) =
        rows.count r) ∧
    (∀ m : Message, simpleDispatch n m = List.replicate n [m]) :=
  ⟨fun colIdx rows r => hashDispatch_rowCount hashOf colIdx n hn rows r,
   fun k rows r => roundRobinDispatch_rowCount n k hn rows r,
   fun m => simpleDispatch_verbatim n m⟩

/-- Witness for C2 at a concrete hash dispatch over two channels. -/
theorem dispatch_completeness_exclusivity_witness :
    rowCountAcross [(3 : Int)]
      (hashDispatch Int.natAbs 0 2 (Message.chunk [[3], [4]])) =
      ([[3], [4]] : List Row).count [(3 : Int)] :=
  (dispatch_completeness_exclusivity Int.natAbs 2 (by decide)).1 0 [[3], [4]] [3]

/-- C6: every dispatcher, regardless of its type, sends a Barrier
unmodified (never split) to every one of its `n` downstream channels. -/
theorem dispatch_barrier_broadcast (hashOf : Int → Nat) (d : DispatcherType)
    (n k : Nat) (b : Barrier) :
    dispatchMessage hashOf d n k (Message.barrier b) =
      List.replicate n [Message.barrier b] := by
  cases d <;> rfl

/-! ## Actor executor state machine

Modelled from the spec, §4.4: states {Initializing, Running, Stopped};
Initializing → Running on the first successful pull; on observing a
merged Stop Barrier the actor forwards it and transitions to Stopped. -/

/-- Modelled from the spec: the actor executor's lifecycle states. -/
inductive ActorState : Type where
  | idle : ActorState
  | running : ActorState
  | stopped : ActorState
deriving DecidableEq

/-- One pull of the actor state machine (`idle` is the Initializing
state): a Stop barrier moves to Stopped, any other first pull moves to
Running. -/
def actorStep (s : ActorState) (m : Message) : ActorState :=
  match s, m with
  | _, Message.barrier ⟨_, Mutation.stop⟩ => ActorState.stopped
  | ActorState.stopped, _ => ActorState.stopped
  | _, _ => ActorState.running

/-- The actor's state after consuming its whole merged input stream. -/
def actorRun (msgs : List Message) : ActorState :=
  msgs.foldl actorStep ActorState.idle

/-! ## Channel epoch discipline

Modelled from the spec, §3 and §6: on a single channel, barrier epochs
are non-decreasing; once a Stop barrier is observed no further messages
on that channel are valid; "a Stop carries no epoch significance beyond
being the terminal marker on its channel". `channelTraceValid` is the
checker that flags violating input instead of silently accepting it. -/

/-- Is a new barrier epoch admissible after the last one observed? -/
def epochOk : Option Nat → Nat → Bool
  | none, _ => true
  | some l, e => decide (l ≤ e)

/-- Validity of the remainder of a channel trace, given the last non-Stop
barrier epoch observed so far. -/
def channelTraceValidFrom : Option Nat → List Message → Bool
  | _, [] => true
  | last, Message.chunk _ :: rest => channelTraceValidFrom last rest
  | _, Message.barrier ⟨_, Mutation.stop⟩ :: rest => rest.isEmpty
  | last, Message.barrier ⟨e, Mutation.nothing⟩ :: rest =>
      epochOk last e && channelTraceValidFrom (some e) rest
  | last, Message.barrier ⟨e, Mutation.update _⟩ :: rest =>
      epochOk last e && channelTraceValidFrom (some e) rest

/-- Validity checker for a whole channel trace. -/
def channelTraceValid (t : List Message) : Bool :=
  channelTraceValidFrom none t

/-- The epochs of all barriers of a trace, Stop included. -/
def barrierEpochs : List Message → List Nat
  | [] => []
  | Message.chunk _ :: rest => barrierEpochs rest
  | Message.barrier b :: rest => b.epoch :: barrierEpochs rest

/-- The epochs of the non-Stop barriers of a trace. -/
def nonStopBarrierEpochs : List Message → List Nat
  | [] => []
  | Message.chunk _ :: rest => nonStopBarrierEpochs rest
  | Message.barrier ⟨_, Mutation.stop⟩ :: rest => nonStopBarrierEpochs rest
  | Message.barrier ⟨e, Mutation.nothing⟩ :: rest => e :: nonStopBarrierEpochs rest
  | Message.barrier ⟨e, Mutation.update _⟩ :: rest => e :: nonStopBarrierEpochs rest

/-- Is a list of epochs non-decreasing? -/
def epochsNonDecreasing : List Nat → Bool
  | [] => true
  | _ :: [] => true
  | a :: b :: rest => decide (a ≤ b) && epochsNonDecreasing (b :: rest)

/-- Prepend an optional last epoch to an epoch list. -/
def withLast : Option Nat → List Nat → List Nat
  | none, es => es
  | some l, es => l :: es

/-- The channel trace fed by the integration test `test_stream_proto`:
one hundred Nothing barriers at epochs 0..99, then a Stop barrier at
epoch 0. -/
def testChannelTrace : List Message :=
  (List.range 100).map (fun e => Message.barrier ⟨e, Mutation.nothing⟩) ++
    [Message.barrier ⟨0, Mutation.stop⟩]

theorem channelTraceValidFrom_mono (t : List Message) :
    ∀ last : Option Nat, channelTraceValidFrom last t = true →
      epochsNonDecreasing (withLast last (nonStopBarrierEpochs t)) = true := by
  induction t with
  | nil =>
    intro last _
    cases last <;> rfl
  | cons m rest ih =>
    intro last hv
    cases m with
    | chunk rows =>
      rw [channelTraceValidFrom] at hv
      rw [nonStopBarrierEpochs]
      exact ih last hv
    | barrier b =>
      obtain ⟨e, mu⟩ := b
      cases mu with
      | stop =>
        rw [channelTraceValidFrom] at hv
        rw [List.isEmpty_iff] at hv
        subst hv
        cases last <;> rfl
      | nothing =>
        rw [channelTraceValidFrom, Bool.and_eq_true] at hv
        have hrec := ih (some e) hv.2
        rw [nonStopBarrierEpochs]
        cases last with
        | none => exact hrec
        | some l =>
          have hle : decide (l ≤ e) = true := hv.1
          simp only [withLast] at hrec ⊢
          cases hns : nonStopBarrierEpochs rest with
          | nil => simp [epochsNonDecreasing, hle]
          | cons x xs =>
            rw [hns] at hrec
            rw [epochsNonDecreasing, Bool.and_eq_true]
            exact ⟨hle, hrec⟩
      | update p =>
        rw [channelTraceValidFrom, Bool.and_eq_true] at hv
        have hrec := ih (some e) hv.2
        rw [nonStopBarrierEpochs]
        cases last with
        | none => exact hrec
        | some l =>
          have hle : decide (l ≤ e) = true := hv.1
          simp only [withLast] at hrec ⊢
          cases hns : nonStopBarrierEpochs rest with
          | nil => simp [epochsNonDecreasing, hle]
          | cons x xs =>
            rw [hns] at hrec
            rw [epochsNonDecreasing, Bool.and_eq_true]
            exact ⟨hle, hrec⟩

/-! ### Claim theorems: channel epoch discipline -/

/-- C7 counterexample: the channel trace the integration test feeds —
Nothing barriers at epochs 0..99 followed by the terminal Stop barrier at
epoch 0 — is valid input (the test requires it to be accepted), yet the
sequence of all observed barrier epochs on the channel decreases at the
Stop. So "observed Barrier epochs are non-decreasing" is false as stated
for the terminal Stop barrier. -/
theorem channel_epoch_counterexample :
    channelTraceValid testChannelTrace = true ∧
    epochsNonDecreasing (barrierEpochs testChannelTrace) = false := by decide

/-- C7 (amended): on every single channel, the epochs of non-Stop
barriers are non-decreasing; a trace violating this is flagged invalid by
the checker (a Stop barrier is the terminal marker and carries no epoch
significance). -/
theorem channel_epoch_monotonicity (t : List Message)
    (h : channelTraceValid t = true) :
    epochsNonDecreasing (nonStopBarrierEpochs t) = true :=
  channelTraceValidFrom_mono t none h

/-- Witness for the amended C7 on the test's channel trace. -/
theorem channel_epoch_monotonicity_witness :
    epochsNonDecreasing (nonStopBarrierEpochs testChannelTrace) = true :=
  channel_epoch_monotonicity testChannelTrace (by decide)

/-! ## Fragment graph builder

Modelled from the spec, §4.1 and §6: the builder takes the actor
registry snapshot and an ordered batch of fragment descriptions; every
declared upstream/downstream fragment id is resolved to an actor
location; if any id is unresolvable the whole batch build fails with a
resolution error naming the reference, and nothing is partially wired. -/

/-- A network location, as in the test's `ActorInfo.host`. -/
structure HostAddress : Type where
  host : String
  port : Int
deriving DecidableEq

/-- The actor registry: fragment id to registered location. -/
def Registry : Type := List (Nat × HostAddress)

/-- Resolve a fragment id against the registry. -/
def resolve (reg : Registry) (id : Nat) : Option HostAddress :=
  match reg.find? fun p => p.1 = id with
  | some p => some p.2
  | none => none

/-- A fragment description: its id, the upstream fragment ids its merge
point consumes, an optional dispatcher, and its downstream fragment ids. -/
structure StreamFragment : Type where
  fragment_id : Nat
  upstream_fragment_id : List Nat
  dispatcher : Option DispatcherType
  downstream_fragment_id : List Nat

/-- Every fragment id a fragment description references. -/
def fragmentRefs (f : StreamFragment) : List Nat :=
  f.upstream_fragment_id ++ f.downstream_fragment_id

/-- A build error: an actor/fragment id reference that could not be
resolved against the registry. -/
inductive BuildError : Type where
  | unresolvedId (id : Nat) : BuildError
deriving DecidableEq

/-- An instantiated actor executor, wired to its resolved upstream and
downstream locations. -/
structure BuiltActor : Type where
  fragment_id : Nat
  upstream_hosts : List HostAddress
  downstream_hosts : List HostAddress

/-- Resolve a list of fragment ids, failing on the first unresolvable one. -/
def resolveAll (reg : Registry) : List Nat → Except BuildError (List HostAddress)
  | [] => Except.ok []
  | id :: ids =>
      match resolve reg id with
      | none => Except.error (BuildError.unresolvedId id)
      | some h =>
          match resolveAll reg ids with
          | Except.ok hs => Except.ok (h :: hs)
          | Except.error e => Except.error e

/-- Build the whole batch of fragments: resolve every reference of every
fragment, instantiating one executor per fragment; any resolution
failure fails the whole batch. -/
def buildFragments (reg : Registry) : List StreamFragment →
    Except BuildError (List BuiltActor)
  | [] => Except.ok []
  | f :: fs =>
      match resolveAll reg f.upstream_fragment_id with
      | Except.error e => Except.error e
      | Except.ok ups =>
          match resolveAll reg f.downstream_fragment_id with
          | Except.error e => Except.error e
          | Except.ok downs =>
              match buildFragments reg fs with
              | Except.error e => Except.error e
              | Except.ok rest => Except.ok (⟨f.fragment_id, ups, downs⟩ :: rest)

/-- The stream manager's state: the registry and the executors built so
far. -/
structure StreamManagerState : Type where
  registry : Registry
  executors : List BuiltActor

/-- Attempt a batch build against the manager state: on success the new
executors are added; on failure the state is returned untouched. -/
def applyBuild (m : StreamManagerState) (frags : List StreamFragment) :
    StreamManagerState :=
  match buildFragments m.registry frags with
  | Except.ok built => ⟨m.registry, m.executors ++ built⟩
  | Except.error _ => m

/-! ### Builder lemmas and claim theorem -/

theorem resolveAll_error_inv (reg : Registry) (ids : List Nat) (id : Nat)
    (h : resolveAll reg ids = Except.error (BuildError.unresolvedId id)) :
    id ∈ ids ∧ resolve reg id = none := by
  induction ids with
  | nil => simp [resolveAll] at h
  | cons i is ih =>
    rw [resolveAll] at h
    cases hi : resolve reg i with
    | none =>
      rw [hi] at h
      have hiid : i = id := by simpa using h
      subst hiid
      exact ⟨List.mem_cons_self i is, hi⟩
    | some hloc =>
      rw [hi] at h
      cases hr : resolveAll reg is with
      | ok hs => rw [hr] at h; simp at h
      | error e =>
        rw [hr] at h
        have he : e = BuildError.unresolvedId id := by simpa using h
        subst he
        obtain ⟨h1, h2⟩ := ih hr
        exact ⟨List.mem_cons_of_mem i h1, h2⟩

theorem resolveAll_ok_inv (reg : Registry) (ids : List Nat)
    (hs : List HostAddress) (h : resolveAll reg ids = Except.ok hs) :
    ∀ id ∈ ids, resolve reg id ≠ none := by
  induction ids generalizing hs with
  | nil => intro id hid; simp at hid
  | cons i is ih =>
    intro id hid
    rw [resolveAll] at h
    cases hi : resolve reg i with
    | none => rw [hi] at h; simp at h
    | some hloc =>
      rw [hi] at h
      cases hr : resolveAll reg is with
      | error e => rw [hr] at h; simp at h
      | ok hs' =>
        rcases List.mem_cons.mp hid with rfl | hmem
        · rw [hi]; intro hcon; exact Option.noConfusion hcon
        · exact ih hs' hr id hmem

/-- C5: if any declared upstream/downstream fragment id of any fragment
in the batch cannot be resolved against the registry, the whole batch
build fails with a resolution error naming an unresolvable reference,
and the manager state is left exactly as if the build had not been
attempted — nothing is partially wired. -/
theorem build_atomic_failure (m : StreamManagerState)
    (frags : List StreamFragment)
    (h : ∃ f ∈ frags, ∃ id ∈ fragmentRefs f, resolve m.registry id = none) :
    ∃ id, buildFragments m.registry frags =
        Except.error (BuildError.unresolvedId id) ∧
      (∃ f ∈ frags, id ∈ fragmentRefs f) ∧ resolve m.registry id = none ∧
      applyBuild m frags = m := by
  have main : ∀ (fs : List StreamFragment),
      (∃ f ∈ fs, ∃ id ∈ fragmentRefs f, resolve m.registry id = none) →
      ∃ id, buildFragments m.registry fs =
          Except.error (BuildError.unresolvedId id) ∧
        (∃ f ∈ fs, id ∈ fragmentRefs f) ∧ resolve m.registry id = none := by
    intro fs
    induction fs with
    | nil => intro hex; simp at hex
    | cons f fs ih =>
      intro hex
      rw [buildFragments]
      cases hu : resolveAll m.registry f.upstream_fragment_id with
      | error e =>
        obtain ⟨id⟩ := e
        obtain ⟨h1, h2⟩ := resolveAll_error_inv _ _ _ hu
        exact ⟨id, rfl, ⟨f, List.mem_cons_self f fs,
          List.mem_append.mpr (Or.inl h1)⟩, h2⟩
      | ok ups =>
        cases hd : resolveAll m.registry f.downstream_fragment_id with
        | error e =>
          obtain ⟨id⟩ := e
          obtain ⟨h1, h2⟩ := resolveAll_error_inv _ _ _ hd
          exact ⟨id, rfl, ⟨f, List.mem_cons_self f fs,
            List.mem_append.mpr (Or.inr h1)⟩, h2⟩
        | ok downs =>
          have hfs : ∃ f' ∈ fs, ∃ id ∈ fragmentRefs f',
              resolve m.registry id = none := by
            obtain ⟨f', hf', id, hid, hnone⟩ := hex
            rcases List.mem_cons.mp hf' with rfl | hmem
            · rcases List.mem_append.mp hid with hup | hdown
              · exact absurd hnone (resolveAll_ok_inv _ _ _ hu id hup)
              · exact absurd hnone (resolveAll_ok_inv _ _ _ hd id hdown)
            · exact ⟨f', hmem, id, hid, hnone⟩
          obtain ⟨id, hbuild, hin, hnone⟩ := ih hfs
          rw [hbuild]
          exact ⟨id, rfl, ⟨hin.choose, List.mem_cons_of_mem f hin.choose_spec.1,
            hin.choose_spec.2⟩, hnone⟩
  obtain ⟨id, hbuild, hin, hnone⟩ := main frags h
  refine ⟨id, hbuild, hin, hnone, ?_⟩
  rw [applyBuild, hbuild]

/-- Witness for C5: a one-fragment batch referencing the unregistered
fragment id 2 fails atomically. -/
theorem build_atomic_failure_witness :
    ∃ id, buildFragments
        (⟨[(1, ⟨"127.0.0.1", 2333⟩)], []⟩ : StreamManagerState).registry
        [⟨1, [2], none, []⟩] =
        Except.error (BuildError.unresolvedId id) ∧
      (∃ f ∈ [(⟨1, [2], none, []⟩ : StreamFragment)], id ∈ fragmentRefs f) ∧
      resolve (⟨[(1, ⟨"127.0.0.1", 2333⟩)], []⟩ : StreamManagerState).registry id =
        none ∧
      applyBuild (⟨[(1, ⟨"127.0.0.1", 2333⟩)], []⟩ : StreamManagerState)
        [⟨1, [2], none, []⟩] =
        (⟨[(1, ⟨"127.0.0.1", 2333⟩)], []⟩ : StreamManagerState) :=
  build_atomic_failure ⟨[(1, ⟨"127.0.0.1", 2333⟩)], []⟩ [⟨1, [2], none, []⟩]
    ⟨⟨1, [2], none, []⟩, by simp, 2, by simp [fragmentRefs], by decide⟩

/-! ## Global memory manager

Embedded from `src/compute/src/memory_management/memory_manager.rs`.
Shared `Arc<AtomicU64>` counters are modelled as cells of an explicit
store, with an `Arc` clone being the same cell index. The memory-control
policy itself is external to the sources (`MemoryControlPolicy` is only
referenced by the manager), so it is modelled from the spec as an
abstract function together with the contract §4.5 states for it. -/

/-- Stats record `MemoryControlStats` — field names from the source. -/
structure MemoryControlStats : Type where
  batch_memory_usage : Nat
  streaming_memory_usage : Nat
  jemalloc_allocated_mib : Nat
  lru_watermark_step : Nat
  lru_watermark_time_ms : Nat
  lru_physical_now_ms : Nat
deriving DecidableEq

/-- A store of shared atomic counters; an `Arc<AtomicU64>` handle is a
cell index, and cloning the `Arc` yields the same index. -/
structure Store : Type where
  cells : List Nat
deriving DecidableEq

/-- Allocate a fresh counter holding `v`; returns its handle. -/
def Store.alloc (st : Store) (v : Nat) : Store × Nat :=
  (⟨st.cells ++ [v]⟩, st.cells.length)

/-- Read a counter. -/
def Store.get (st : Store) (r : Nat) : Nat := st.cells.getD r 0

/-- Write a counter. -/
def Store.put (st : Store) (r v : Nat) : Store := ⟨st.cells.set r v⟩

/-- Modelled from the spec: the raw memory-usage samples of one tick;
`none` is a failing sample. -/
structure RawSample : Type where
  batch : Option Nat
  stream : Option Nat
  jemalloc : Option Nat
deriving DecidableEq

/-- The usable sample of one tick. -/
structure MemSample : Type where
  batch : Nat
  stream : Nat
  jemalloc : Nat
deriving DecidableEq

/-- Modelled from the spec: "a failing sample is treated as zero". -/
def sampleOrZero (raw : RawSample) : MemSample :=
  ⟨raw.batch.getD 0, raw.stream.getD 0, raw.jemalloc.getD 0⟩

/-- Modelled from the spec: the pluggable memory-control policy. It
receives the total memory budget, the barrier interval, the previous
stats, the tick's sample and the current shared watermark value, and
returns the updated stats together with the advanced watermark value. -/
structure MemoryControlPolicy : Type where
  apply : Nat → Nat → MemoryControlStats → MemSample → Nat →
    MemoryControlStats × Nat

/-- The metrics surface the loop republishes to — gauge names from the
source. -/
structure StreamingMetrics : Type where
  lru_current_watermark_time_ms : Int
  lru_physical_now_ms : Int
  lru_watermark_step : Int
  lru_runtime_loop_count : Nat
  jemalloc_allocated_bytes : Int
deriving DecidableEq

/-- Manager struct `GlobalMemoryManager` — field names from the source. -/
structure GlobalMemoryManager : Type where
  watermark_epoch : Nat
  total_compute_memory_bytes : Nat
  barrier_interval_ms : Nat
  memory_control_policy : MemoryControlPolicy

/-- Constructor `GlobalMemoryManager::new`: floors the barrier interval at 10 ms
("Arbitrarily set a minimal barrier interval in case it is too small,
especially when it's 0") and allocates the shared watermark counter
initialized to 0. -/
def GlobalMemoryManager.new (st : Store) (total_compute_memory_bytes : Nat)
    (barrier_interval_ms : Nat) (memory_control_policy : MemoryControlPolicy) :
    Store × GlobalMemoryManager :=
  let bi := max barrier_interval_ms 10
  ((st.alloc 0).1,
    ⟨(st.alloc 0).2, total_compute_memory_bytes, bi, memory_control_policy⟩)

/-- Accessor `GlobalMemoryManager::get_watermark_epoch`: a clone of the shared
watermark counter handle. -/
def GlobalMemoryManager.get_watermark_epoch (m : GlobalMemoryManager) : Nat :=
  m.watermark_epoch

/-- The counter handle the control loop clones and hands to the policy on
a tick (source: `self.watermark_epoch.clone()` in `run`). -/
def GlobalMemoryManager.tickWatermarkCell (m : GlobalMemoryManager) : Nat :=
  m.watermark_epoch

/-- The initial `MemoryControlStats` of `run` (all usages and the step
are zero; the time fields start at the current physical time). -/
def initMemoryControlStats (now : Nat) : MemoryControlStats :=
  ⟨0, 0, 0, 0, now, now⟩

/-- State threaded through the control loop: the shared-counter store,
the previous stats, and the metrics surface. -/
structure TickState : Type where
  store : Store
  stats : MemoryControlStats
  metrics : StreamingMetrics

/-- Republish the returned stats to the metrics surface and bump the
loop counter, exactly as the tail of the loop body does. -/
def publishMetrics (ms : StreamingMetrics) (s : MemoryControlStats) :
    StreamingMetrics :=
  ⟨Int.ofNat s.lru_watermark_time_ms, Int.ofNat s.lru_physical_now_ms,
   Int.ofNat s.lru_watermark_step, ms.lru_runtime_loop_count + 1,
   Int.ofNat s.jemalloc_allocated_mib⟩

/-- One iteration of the control loop: sample (failing samples read as
zero), invoke the policy with the shared watermark counter, store the
advanced watermark, republish the returned stats. -/
def GlobalMemoryManager.runTick (m : GlobalMemoryManager) (ts : TickState)
    (raw : RawSample) : TickState :=
  let sample := sampleOrZero raw
  let applied := m.memory_control_policy.apply m.total_compute_memory_bytes
    m.barrier_interval_ms ts.stats sample (ts.store.get m.tickWatermarkCell)
  ⟨ts.store.put m.tickWatermarkCell applied.2, applied.1,
    publishMetrics ts.metrics applied.1⟩

/-- The control loop over a finite schedule of ticks. -/
def GlobalMemoryManager.runLoop (m : GlobalMemoryManager) :
    TickState → List RawSample → TickState
  | ts, [] => ts
  | ts, raw :: rest => m.runLoop (m.runTick ts raw) rest

/-- The state after each tick of the control loop. -/
def GlobalMemoryManager.runTrace (m : GlobalMemoryManager) :
    TickState → List RawSample → List TickState
  | _, [] => []
  | ts, raw :: rest => m.runTick ts raw :: m.runTrace (m.runTick ts raw) rest

/-- Modelled from the spec, §4.5: the contract the external policy must
satisfy — given non-decreasing pressure it must not decrease the
watermark — together with the stats faithfully recording the sampled
allocator pressure (§3: the stats hold the sampled usages). -/
def PolicyContract (p : MemoryControlPolicy) : Prop :=
  (∀ total bi prev sample wm, prev.jemalloc_allocated_mib ≤ sample.jemalloc →
    wm ≤ (p.apply total bi prev sample wm).2) ∧
  (∀ total bi prev sample wm,
    ((p.apply total bi prev sample wm).1).jemalloc_allocated_mib =
      sample.jemalloc)

/-! ### Memory manager lemmas -/

theorem Store.get_put_self (st : Store) (r v : Nat) (h : r < st.cells.length) :
    (st.put r v).get r = v := by
  unfold Store.get Store.put
  simp [List.getD_eq_getElem?_getD, List.getElem?_set_self h]

theorem Store.get_put_ne (st : Store) (r r' v : Nat) (h : r ≠ r') :
    (st.put r v).get r' = st.get r' := by
  unfold Store.get Store.put
  simp [List.getD_eq_getElem?_getD, List.getElem?_set_ne h]

theorem Store.length_put (st : Store) (r v : Nat) :
    (st.put r v).cells.length = st.cells.length := by
  simp [Store.put]

theorem Store.get_alloc (st : Store) (v : Nat) :
    (st.alloc v).1.get (st.alloc v).2 = v := by
  unfold Store.alloc Store.get
  simp [List.getD_eq_getElem?_getD, List.getElem?_append_right (Nat.le_refl _)]

theorem watermark_trace_mono (m : GlobalMemoryManager)
    (hp : PolicyContract m.memory_control_policy) :
    ∀ (raws : List RawSample) (ts : TickState),
      m.watermark_epoch < ts.store.cells.length →
      List.Chain' (· ≤ ·) (ts.stats.jemalloc_allocated_mib ::
        raws.map fun r => (sampleOrZero r).jemalloc) →
      List.Chain' (· ≤ ·) (ts.store.get m.watermark_epoch ::
        (m.runTrace ts raws).map fun t => t.store.get m.watermark_epoch) := by
  intro raws
  induction raws with
  | nil =>
    intro ts _ _
    simp [GlobalMemoryManager.runTrace]
  | cons raw rest ih =>
    intro ts hlen hchain
    rw [List.map_cons, List.chain'_cons] at hchain
    rw [GlobalMemoryManager.runTrace, List.map_cons, List.chain'_cons]
    have hcell : (m.runTick ts raw).store.get m.watermark_epoch =
        (m.memory_control_policy.apply m.total_compute_memory_bytes
          m.barrier_interval_ms ts.stats (sampleOrZero raw)
          (ts.store.get m.tickWatermarkCell)).2 :=
      Store.get_put_self ts.store m.watermark_epoch _ hlen
    constructor
    · rw [hcell]
      exact hp.1 _ _ _ _ _ hchain.1
    · have hlen' : m.watermark_epoch < (m.runTick ts raw).store.cells.length := by
        rw [show (m.runTick ts raw).store =
          ts.store.put m.tickWatermarkCell _ from rfl, Store.length_put]
        exact hlen
      have hstats : (m.runTick ts raw).stats.jemalloc_allocated_mib =
          (sampleOrZero raw).jemalloc := hp.2 _ _ _ _ _
      have hchain' : List.Chain' (· ≤ ·)
          ((m.runTick ts raw).stats.jemalloc_allocated_mib ::
            rest.map fun r => (sampleOrZero r).jemalloc) := by
        rw [hstats]
        exact hchain.2
      exact ih (m.runTick ts raw) hlen' hchain'

/-! ### Claim theorems: memory manager -/

/-- C4: for every policy satisfying the §4.5 contract (given
non-decreasing pressure it must not decrease the watermark), the shared
watermark counter is non-decreasing across consecutive control-loop
ticks over the manager's lifetime, starting from construction. -/
theorem watermark_monotonicity (st : Store) (total bi now : Nat)
    (p : MemoryControlPolicy) (ms : StreamingMetrics) (raws : List RawSample)
    (hp : PolicyContract p)
    (hpressure : List.Chain' (· ≤ ·)
      (raws.map fun r => (sampleOrZero r).jemalloc)) :
    List.Chain' (· ≤ ·)
      ((GlobalMemoryManager.new st total bi p).1.get
          (GlobalMemoryManager.new st total bi p).2.get_watermark_epoch ::
        ((GlobalMemoryManager.new st total bi p).2.runTrace
            ⟨(GlobalMemoryManager.new st total bi p).1,
              initMemoryControlStats now, ms⟩ raws).map
          fun t => t.store.get
            (GlobalMemoryManager.new st total bi p).2.get_watermark_epoch) := by
  have h1 : (GlobalMemoryManager.new st total bi p).2.watermark_epoch <
      (GlobalMemoryManager.new st total bi p).1.cells.length := by
    show st.cells.length < (st.cells ++ [0]).length
    simp
  have h2 : List.Chain' (· ≤ ·)
      ((initMemoryControlStats now).jemalloc_allocated_mib ::
        raws.map fun r => (sampleOrZero r).jemalloc) := by
    show List.Chain' (· ≤ ·) (0 :: raws.map fun r => (sampleOrZero r).jemalloc)
    cases hmap : raws.map fun r => (sampleOrZero r).jemalloc with
    | nil => simp
    | cons x xs =>
      rw [List.chain'_cons]
      rw [hmap] at hpressure
      exact ⟨Nat.zero_le x, hpressure⟩
  exact watermark_trace_mono (GlobalMemoryManager.new st total bi p).2 hp raws
    ⟨(GlobalMemoryManager.new st total bi p).1, initMemoryControlStats now, ms⟩
    h1 h2

/-- A policy that records the sampled pressure and keeps the watermark:
satisfies the policy contract. -/
def idPolicy : MemoryControlPolicy :=
  ⟨fun _ _ prev sample wm =>
    ({ prev with jemalloc_allocated_mib := sample.jemalloc }, wm)⟩

theorem idPolicy_contract : PolicyContract idPolicy :=
  ⟨fun _ _ _ _ wm _ => Nat.le_refl wm, fun _ _ _ _ _ => rfl⟩

/-- Witness for C4 over a two-tick run with a failing first sample. -/
theorem watermark_monotonicity_witness :
    List.Chain' (· ≤ ·)
      ((GlobalMemoryManager.new ⟨[]⟩ 0 0 idPolicy).1.get
          (GlobalMemoryManager.new ⟨[]⟩ 0 0 idPolicy).2.get_watermark_epoch ::
        ((GlobalMemoryManager.new ⟨[]⟩ 0 0 idPolicy).2.runTrace
            ⟨(GlobalMemoryManager.new ⟨[]⟩ 0 0 idPolicy).1,
              initMemoryControlStats 0, ⟨0, 0, 0, 0, 0⟩⟩
            [⟨none, none, none⟩, ⟨some 1, some 2, some 3⟩]).map
          fun t => t.store.get
            (GlobalMemoryManager.new ⟨[]⟩ 0 0 idPolicy).2.get_watermark_epoch) :=
  watermark_monotonicity ⟨[]⟩ 0 0 0 idPolicy ⟨0, 0, 0, 0, 0⟩
    [⟨none, none, none⟩, ⟨some 1, some 2, some 3⟩] idPolicy_contract
    (show List.Chain' (· ≤ ·) [0, 3] from
      List.chain'_cons.mpr ⟨by omega, List.chain'_singleton 3⟩)

/-- C8: the control loop runs exactly one policy invocation and one
metrics republication per tick with no early exit and no error path —
the trace has one entry per tick, the loop counter advances by exactly
the number of ticks, every trace entry's gauges equal the stats the
policy returned on that tick, and a failing sample is read as zero. -/
theorem control_loop_total (m : GlobalMemoryManager) (ts : TickState)
    (raws : List RawSample) :
    (m.runTrace ts raws).length = raws.length ∧
    (m.runLoop ts raws).metrics.lru_runtime_loop_count =
      ts.metrics.lru_runtime_loop_count + raws.length ∧
    (∀ t ∈ m.runTrace ts raws,
      t.metrics.lru_current_watermark_time_ms =
          Int.ofNat t.stats.lru_watermark_time_ms ∧
      t.metrics.lru_physical_now_ms = Int.ofNat t.stats.lru_physical_now_ms ∧
      t.metrics.lru_watermark_step = Int.ofNat t.stats.lru_watermark_step ∧
      t.metrics.jemalloc_allocated_bytes =
        Int.ofNat t.stats.jemalloc_allocated_mib) ∧
    (∀ raw : RawSample, m.runTick ts raw =
      m.runTick ts ⟨some (raw.batch.getD 0), some (raw.stream.getD 0),
        some (raw.jemalloc.getD 0)⟩) := by
  refine ⟨?_, ?_, ?_, fun raw => rfl⟩
  · induction raws generalizing ts with
    | nil => rfl
    | cons raw rest ih =>
      rw [GlobalMemoryManager.runTrace, List.length_cons, ih (m.runTick ts raw),
        List.length_cons]
  · induction raws generalizing ts with
    | nil => rfl
    | cons raw rest ih =>
      rw [GlobalMemoryManager.runLoop, ih (m.runTick ts raw)]
      have hone : (m.runTick ts raw).metrics.lru_runtime_loop_count =
          ts.metrics.lru_runtime_loop_count + 1 := rfl
      rw [hone, List.length_cons]
      omega
  · induction raws generalizing ts with
    | nil => intro t ht; simp [GlobalMemoryManager.runTrace] at ht
    | cons raw rest ih =>
      intro t ht
      rw [GlobalMemoryManager.runTrace] at ht
      rcases List.mem_cons.mp ht with rfl | hmem
      · exact ⟨rfl, rfl, rfl, rfl⟩
      · exact ih (m.runTick ts raw) t hmem

/-- Witness for C8 on a concrete one-tick run. -/
theorem control_loop_total_witness :
    ((GlobalMemoryManager.new ⟨[]⟩ 0 0 idPolicy).2.runTrace
      ⟨(GlobalMemoryManager.new ⟨[]⟩ 0 0 idPolicy).1,
        initMemoryControlStats 0, ⟨0, 0, 0, 0, 0⟩⟩
      [⟨none, some 7, none⟩]).length = 1 :=
  (control_loop_total (GlobalMemoryManager.new ⟨[]⟩ 0 0 idPolicy).2
    ⟨(GlobalMemoryManager.new ⟨[]⟩ 0 0 idPolicy).1,
      initMemoryControlStats 0, ⟨0, 0, 0, 0, 0⟩⟩
    [⟨none, some 7, none⟩]).1

/-- C9: construction floors the configured barrier interval at the fixed
minimum 10 ms — the interval the manager stores (and the loop hands to
the policy each tick) equals `max b 10`, so it is never below 10. -/
theorem barrier_interval_floor (st : Store) (total bi : Nat)
    (p : MemoryControlPolicy) :
    ((GlobalMemoryManager.new st total bi p).2).barrier_interval_ms =
        max bi 10 ∧
    10 ≤ ((GlobalMemoryManager.new st total bi p).2).barrier_interval_ms :=
  ⟨rfl, le_max_right bi 10⟩

/-- C10: the manager's shared watermark counter is initialized to 0 at
construction; `get_watermark_epoch` is a handle to the very cell the
control loop hands to the policy on every tick; the policy's returned
watermark is stored in that cell and a tick writes no other cell. -/
theorem watermark_counter_shared (st : Store) (total bi : Nat)
    (p : MemoryControlPolicy) :
    (GlobalMemoryManager.new st total bi p).1.get
        ((GlobalMemoryManager.new st total bi p).2.get_watermark_epoch) = 0 ∧
    (∀ m : GlobalMemoryManager, m.get_watermark_epoch = m.tickWatermarkCell) ∧
    (∀ (m : GlobalMemoryManager) (ts : TickState) (raw : RawSample),
      m.get_watermark_epoch < ts.store.cells.length →
      ((m.runTick ts raw).store).get m.get_watermark_epoch =
        (m.memory_control_policy.apply m.total_compute_memory_bytes
          m.barrier_interval_ms ts.stats (sampleOrZero raw)
          (ts.store.get m.get_watermark_epoch)).2) ∧
    (∀ (m : GlobalMemoryManager) (ts : TickState) (raw : RawSample) (r : Nat),
      r ≠ m.get_watermark_epoch →
      ((m.runTick ts raw).store).get r = ts.store.get r) := by
  refine ⟨Store.get_alloc st 0, fun m => rfl, ?_, ?_⟩
  · intro m ts raw hlen
    exact Store.get_put_self ts.store m.watermark_epoch _ hlen
  · intro m ts raw r hr
    exact Store.get_put_ne ts.store m.watermark_epoch r _ fun he => hr he.symm

/-- Witness for C10 on a concretely constructed manager. -/
theorem watermark_counter_shared_witness :
    (GlobalMemoryManager.new ⟨[]⟩ 0 0 idPolicy).1.get
        ((GlobalMemoryManager.new ⟨[]⟩ 0 0 idPolicy).2.get_watermark_epoch) = 0 ∧
    (((GlobalMemoryManager.new ⟨[]⟩ 0 0 idPolicy).2.runTick
        ⟨(GlobalMemoryManager.new ⟨[]⟩ 0 0 idPolicy).1,
          initMemoryControlStats 0, ⟨0, 0, 0, 0, 0⟩⟩
        ⟨some 1, some 2, some 3⟩).store).get 7 =
      (GlobalMemoryManager.new ⟨[]⟩ 0 0 idPolicy).1.get 7 :=
  ⟨(watermark_counter_shared ⟨[]⟩ 0 0 idPolicy).1,
    (watermark_counter_shared ⟨[]⟩ 0 0 idPolicy).2.2.2
      (GlobalMemoryManager.new ⟨[]⟩ 0 0 idPolicy).2
      ⟨(GlobalMemoryManager.new ⟨[]⟩ 0 0 idPolicy).1,
        initMemoryControlStats 0, ⟨0, 0, 0, 0, 0⟩⟩
      ⟨some 1, some 2, some 3⟩ 7 (by decide)⟩

/-! ## End-to-end diamond scenario

The §8 end-to-end scenario (and `test_stream_proto`): a source fragment,
a fan-out fragment with Hash dispatch to two downstream pass-through
fragments, and a fan-in sink fragment merging both with Simple dispatch.
Each fragment's operator chain is a pass-through; channels are the
per-destination outputs of the upstream dispatcher; each actor's input
is the merge of its upstream channels. -/

/-- A concrete hash function for the scenario. -/
def intHash : Int → Nat := Int.natAbs

/-- The driven input: one hundred Nothing barriers at epochs 0..99, then
one Stop barrier at epoch 0. -/
def c3Input : List Message :=
  (List.range 100).map (fun e => Message.barrier ⟨e, Mutation.nothing⟩) ++
    [Message.barrier ⟨0, Mutation.stop⟩]

/-- The channel from the source actor to the fan-out fragment. -/
def c3SourceChan : List Message :=
  (dispatchRun intHash DispatcherType.simple 1 0 c3Input).getD 0 []

/-- The fan-out actor's merged input. -/
def c3FanoutIn : List Message := merger [c3SourceChan]

/-- The two channels of the fan-out's Hash dispatcher. -/
def c3FanoutChans : List (List Message) :=
  dispatchRun intHash (DispatcherType.hash 0) 2 0 c3FanoutIn

/-- The first pass-through actor's merged input. -/
def c3PipeZeroIn : List Message := merger [c3FanoutChans.getD 0 []]

/-- The second pass-through actor's merged input. -/
def c3PipeOneIn : List Message := merger [c3FanoutChans.getD 1 []]

/-- The channel from the first pass-through to the sink fragment. -/
def c3PipeZeroChan : List Message :=
  (dispatchRun intHash DispatcherType.simple 1 0 c3PipeZeroIn).getD 0 []

/-- The channel from the second pass-through to the sink fragment. -/
def c3PipeOneChan : List Message :=
  (dispatchRun intHash DispatcherType.simple 1 0 c3PipeOneIn).getD 0 []

/-- The sink actor's merged input: barrier-aligned fan-in of the two
parallel branches. -/
def c3SinkIn : List Message := merger [c3PipeZeroChan, c3PipeOneChan]

/-- The channel the sink observation taps (Simple dispatch out of the
fan-in fragment). -/
def c3SinkChan : List Message :=
  (dispatchRun intHash DispatcherType.simple 1 0 c3SinkIn).getD 0 []

/-- C3: in the diamond topology driven with one hundred Nothing barriers
at epochs 0..99 followed by one Stop barrier at epoch 0, the sink
observes exactly one hundred Nothing barriers in epoch order followed by
exactly one Stop barrier, and every actor of the diamond ends in the
Stopped state. -/
theorem diamond_scenario :
    c3SinkChan =
      (List.range 100).map (fun e => Message.barrier ⟨e, Mutation.nothing⟩) ++
        [Message.barrier ⟨0, Mutation.stop⟩] ∧
    actorRun c3Input = ActorState.stopped ∧
    actorRun c3FanoutIn = ActorState.stopped ∧
    actorRun c3PipeZeroIn = ActorState.stopped ∧
    actorRun c3PipeOneIn = ActorState.stopped ∧
    actorRun c3SinkIn = ActorState.stopped := by decide

end Spec2Proof
